import Mathlib

/-!
Verification development for the job-market trend analytics engine
(`backend/analytics.py`, `backend/skill_extractor.py`, `backend/models.py`).

Numbers: Python floats are modelled as exact rationals (ℚ).  Every numeric
fact proved below is far outside double rounding error (the tolerances in
play are ±0.01 while the float error of the expressions involved is < 1e-12),
and no `round` call in any theorem lands on an exact half-way tie, so the
half-up rounding of Mathlib's `round` agrees with Python's banker rounding
at every point used.
-/

namespace JobMarket

/-- `TrendDirection` from models.py (up / down / stable). -/
inductive TrendDirection : Type
  | up
  | down
  | stable
deriving DecidableEq, Repr

/-- `SkillCategory` from models.py. -/
inductive SkillCategory : Type
  | programming
  | frontend
  | backend
  | databases
  | cloud
  | mobile
  | data
  | tools
deriving DecidableEq, Repr

/-- Python `round(x, 2)`: round to 2 decimal places. -/
def roundTo2 (x : ℚ) : ℚ := ((round (100 * x) : ℤ) : ℚ) / 100

/-- Growth of the 7-day window against the day-8..30 slice,
analytics.py lines 127-137:
`jobs_8_to_30d = count30 - count7`, `daily_recent = count7 / 7`,
`daily_older = jobs_8_to_30d / 23 if jobs_8_to_30d > 0 else 0.01`,
growth `= ((daily_recent - daily_older) / daily_older) * 100`, rounded
to two decimals. -/
def growth_7d_vs_23d (count7 count30 : ℚ) : ℚ :=
  let jobs_8_to_30d := count30 - count7
  let daily_recent := count7 / 7
  let daily_older := if jobs_8_to_30d > 0 then jobs_8_to_30d / 23 else 1 / 100
  roundTo2 (((daily_recent - daily_older) / daily_older) * 100)

/-- Growth of the 1..30-day window against the day-31..60 slice,
analytics.py lines 139-150. -/
def growth_30d_vs_30d (count30 count60 : ℚ) : ℚ :=
  let jobs_31_to_60d := count60 - count30
  let daily_recent := count30 / 30
  let daily_older := if jobs_31_to_60d > 0 then jobs_31_to_60d / 30 else 1 / 100
  roundTo2 (((daily_recent - daily_older) / daily_older) * 100)

/-- The ordered list of pairwise growth rates stored in `growth_rates`
(analytics.py lines 121-150); dict insertion order puts the 7d-vs-older
rate first (most recent pair), then the 30d-vs-older rate. -/
def growthRates (count7 count30 count60 : ℚ) : List ℚ :=
  [growth_7d_vs_23d count7 count30, growth_30d_vs_30d count30 count60]

/-- Composite growth score, analytics.py lines 152-170.  Input: the pairwise
rates in most-recent-first order (the `growth_rates.values()` order).
`filtered_rates = [r for r in rates if abs(r) <= 500]`; with two or more
survivors the first two are combined with weights 0.7/0.3; with exactly one
survivor it is used directly; with none the first raw rate is clamped to
[-200, 200]; with no rates at all the composite is 0.0. -/
def compositeGrowth : List ℚ → ℚ
  | [] => 0
  | r0 :: rest =>
    match (r0 :: rest).filter (fun r => decide (|r| ≤ 500)) with
    | [] => min (max r0 (-200)) 200
    | [f0] => f0
    | f0 :: f1 :: _ => (7 / 10) * f0 + (3 / 10) * f1

/-- `_determine_trend_direction_fixed`, analytics.py lines 225-254.
`recent_activity = job_counts.get(7, 0)` is passed directly. -/
def determine_trend_direction_fixed (avg_growth_rate : ℚ)
    (recent_activity : ℕ) : TrendDirection :=
  if avg_growth_rate > 50 ∧ recent_activity ≥ 5 then .up
  else if avg_growth_rate > 20 ∧ recent_activity ≥ 2 then .up
  else if avg_growth_rate > 5 ∧ recent_activity ≥ 1 then .up
  else if avg_growth_rate < -20 ∨ recent_activity = 0 then .down
  else .stable

/-! ### The trend-store write loop (analytics.py lines 22-223)

The whole of `calculate_skill_trends` — including the per-key
`self.skills.update_one` calls at lines 204-208 — sits inside one
function-level `try`; the `except` at lines 219-223 logs and returns 0.
`write k = true` models a successful `update_one` for key `k`, `false`
models a raised exception.  `writtenKeys` is the list of keys whose write
completed before control left the loop; `loopReturn` is the function's
return value (`updated_count` on success, 0 from the `except` branch). -/

/-- Keys actually written by the loop: writes happen in order and the first
failing write raises out of the whole function, so later keys are skipped. -/
def writtenKeys (write : ℕ → Bool) : List ℕ → List ℕ
  | [] => []
  | k :: ks => if write k then k :: writtenKeys write ks else []

/-- Return value of `calculate_skill_trends` restricted to the write loop:
`updated_count` (one per key) when every write succeeds, else 0 from the
function-level `except` handler. -/
def loopReturn (write : ℕ → Bool) (keys : List ℕ) : ℕ :=
  if keys.all write then keys.length else 0


/-! ## Claim theorems for the growth calculator -/

/-- C1 counterexample.  For window counts 7d=14, 30d=30 the implementation's
pairwise growth rate is not within ±0.01 of the spec's stated value 187.36:
the code divides by the exact `16/23`, giving `(30/16)·100 = 187.5`, while the
spec's 187.36 was derived from the pre-rounded `0.696`. -/
theorem C1_growth_formula_counterexample :
    ¬ |growth_7d_vs_23d 14 30 - 18736 / 100| ≤ 1 / 100 := by
  norm_num [growth_7d_vs_23d, roundTo2, round_eq, abs_of_nonneg]

/-- C1 amended: for job counts 7d=14, 30d=30 the pairwise growth rate for the
7d-vs-older pair (daily_recent = 14/7, daily_older = 16/23, growth =
((daily_recent − daily_older)/daily_older)·100 rounded to 2 decimals) equals
exactly 187.5, hence reproduces 187.5 within ±0.01 (not 187.36). -/
theorem C1_growth_formula_amended :
    growth_7d_vs_23d 14 30 = 375 / 2 ∧
    |growth_7d_vs_23d 14 30 - 375 / 2| ≤ 1 / 100 := by
  constructor <;> norm_num [growth_7d_vs_23d, roundTo2, round_eq, abs_of_nonneg]

/-- C2 counterexample.  With composite growth exactly 50 and recent 7-day
count 5 the classifier does not land in the STABLE/DOWN branch: it falls
through the first rule (50 > 50 is false) but the second rule
(g > 20 and r ≥ 2) fires, so the result is UP. -/
theorem C2_trend_threshold_counterexample :
    determine_trend_direction_fixed 50 5 ≠ TrendDirection.stable ∧
    determine_trend_direction_fixed 50 5 ≠ TrendDirection.down := by
  have h : determine_trend_direction_fixed 50 5 = TrendDirection.up := by
    norm_num [determine_trend_direction_fixed]
  rw [h]
  exact ⟨by decide, by decide⟩

/-- C2 amended: with recent count r = 5, composite growth 51 classifies UP via
the first rule; composite growth exactly 50 fails the first rule (it requires
g > 50 strictly) but still classifies UP via the moderate rule g > 20 ∧ r ≥ 2,
not STABLE/DOWN. -/
theorem C2_trend_threshold_amended :
    determine_trend_direction_fixed 51 5 = TrendDirection.up ∧
    determine_trend_direction_fixed 50 5 = TrendDirection.up ∧
    ¬ ((50 : ℚ) > 50 ∧ (5 : ℕ) ≥ 5) := by
  refine ⟨?_, ?_, ?_⟩ <;> norm_num [determine_trend_direction_fixed]

/-- C3 (confirmed): composite growth score selection.  Rates whose absolute
value exceeds 500 are discarded; with at least two survivors the composite is
0.7·(most recent surviving rate) + 0.3·(next surviving rate); with exactly one
survivor it is that rate; with no survivors it is the first raw rate clamped
to [−200, 200]; with no pairwise rates at all it is 0. -/
theorem C3_composite_growth_selection (rates : List ℚ) :
    (rates = [] → compositeGrowth rates = 0) ∧
    ∀ r0 rest, rates = r0 :: rest →
      ((r0 :: rest).filter (fun r => decide (|r| ≤ 500)) = [] →
          compositeGrowth rates = min (max r0 (-200)) 200) ∧
      (∀ f0, (r0 :: rest).filter (fun r => decide (|r| ≤ 500)) = [f0] →
          compositeGrowth rates = f0) ∧
      (∀ f0 f1 fs, (r0 :: rest).filter (fun r => decide (|r| ≤ 500)) = f0 :: f1 :: fs →
          compositeGrowth rates = (7 / 10) * f0 + (3 / 10) * f1) := by
  constructor
  · rintro rfl; rfl
  · rintro r0 rest rfl
    refine ⟨fun h => ?_, fun f0 h => ?_, fun f0 f1 fs h => ?_⟩ <;>
      simp only [compositeGrowth, h]

/-- C3 witness: on rates [600, 10, 20] the outlier 600 is discarded and the
composite is 0.7·10 + 0.3·20 = 13. -/
theorem C3_composite_growth_selection_witness :
    compositeGrowth [600, 10, 20] = 13 := by
  have hf : ([600, 10, 20] : List ℚ).filter (fun r => decide (|r| ≤ 500))
      = [10, 20] := by norm_num [List.filter]
  have h := ((C3_composite_growth_selection [600, 10, 20]).2
      600 [10, 20] rfl).2.2 10 20 [] hf
  rw [h]; norm_num

/-- C4 counterexample.  A failed write for one key does block the remaining
keys: with keys [0, 1] and a write that fails exactly on key 0, nothing is
written at all — in particular key 1, whose write would succeed, is skipped,
because the single function-level `except` aborts the loop. -/
theorem C4_write_independence_counterexample :
    writtenKeys (fun k => k != 0) [0, 1] = [] ∧
    (fun k => k != 0) 1 = true ∧
    loopReturn (fun k => k != 0) [0, 1] = 0 := by
  refine ⟨rfl, rfl, rfl⟩

/-- C4 amended: the writes are not independent per key — the first failing
write aborts the run.  Keys written before the failure are kept, the failing
key and every later key are not written, and `calculate_skill_trends`
returns 0 from its function-level exception handler. -/
theorem C4_write_independence_amended (write : ℕ → Bool)
    (pre post : List ℕ) (k : ℕ)
    (hpre : ∀ x ∈ pre, write x = true) (hk : write k = false) :
    writtenKeys write (pre ++ k :: post) = pre ∧
    loopReturn write (pre ++ k :: post) = 0 := by
  constructor
  · induction pre with
    | nil => simp [writtenKeys, hk]
    | cons x xs ih =>
      have hx : write x = true := hpre x (by simp)
      have ih2 := ih (fun y hy => hpre y (by simp [hy]))
      simpa [writtenKeys, hx] using ih2
  · have h : (pre ++ k :: post).all write = false := by
      simp [List.all_append, List.all_cons, hk]
    simp [loopReturn, h]

/-- C4 witness: keys [1, 0, 2] with a write failing exactly on key 0 —
key 1 is written, keys 0 and 2 are not, and the return value is 0. -/
theorem C4_write_independence_amended_witness :
    writtenKeys (fun k => k != 0) [1, 0, 2] = [1] ∧
    loopReturn (fun k => k != 0) [1, 0, 2] = 0 :=
  C4_write_independence_amended (fun k => k != 0) [1] [2] 0
    (by decide) (by decide)


/-! ## Skill extractor (skill_extractor.py)

Text is modelled as `List Char` of the already lower-cased posting text.
Python `re` is modelled denotationally: the compiled category patterns
(lines 82-98) are alternations of literal terms, each either wrapped in
`\b ... \b` word boundaries (terms without a dot) or with every `\.`
replaced by `\.?` and no boundaries (terms with a dot); the context
patterns of the confidence scorer are embedded as a small regular
expression syntax with Brzozowski-derivative matching, whose boolean
outcome is what `re.search`'s truthiness provides.

Confidence values: every float the scorer manipulates is an exact multiple
of 0.1 (base 0.5, bonuses +0.3/+0.2/+0.2, penalty −0.4, clamp [0.0, 1.0],
threshold 0.3), so confidences are represented as integer tenths:
5, +3, +2, +2, −4, clamp [0, 10], threshold `3 <`. -/

/-- Python regex `\w` restricted to ASCII: letters, digits, underscore. -/
def isWordChar (c : Char) : Bool := c.isAlphanum || c = '_'

def isWordOpt : Option Char → Bool
  | some c => isWordChar c
  | none => false

/-- `\b` holds between two (possibly absent) characters iff exactly one
side is a word character. -/
def isBoundary (a b : Option Char) : Bool := isWordOpt a != isWordOpt b

/-- Python `\s` (ASCII). -/
def isSpaceChar (c : Char) : Bool :=
  c = ' ' || c = '\t' || c = '\n' || c = '\r' || c = '\x0b' || c = '\x0c'

/-- Match one vocabulary term literally against the front of the remaining
text (skill_extractor.py lines 87-93).  When `dotOpt` is true each '.' of
the term is compiled as `\.?` (line 90): greedily consume a literal '.',
falling back to skipping it; otherwise every character must match exactly.
Returns the number of text characters consumed. -/
def matchTermLen (dotOpt : Bool) : List Char → List Char → Option ℕ
  | [], _ => some 0
  | t :: ts, rest =>
    if dotOpt ∧ t = '.' then
      match rest with
      | r :: rs =>
        if r = '.' then
          match matchTermLen dotOpt ts rs with
          | some n => some (n + 1)
          | none => matchTermLen dotOpt ts (r :: rs)
        else matchTermLen dotOpt ts (r :: rs)
      | [] => matchTermLen dotOpt ts []
    else
      match rest with
      | r :: rs => if r = t then (matchTermLen dotOpt ts rs).map (· + 1) else none
      | [] => none

/-- The whole-word condition of a `\b...\b`-wrapped match of length `n` at
offset `i`: a word boundary holds both before the first matched character
and after the last one. -/
def wholeWordAt (text : List Char) (i n : ℕ) : Bool :=
  let prev := if i = 0 then none else text.get? (i - 1)
  let last := if n = 0 then prev else text.get? (i + n - 1)
  isBoundary prev (text.get? i) && isBoundary last (text.get? (i + n))

/-- One alternative of a compiled category pattern, matched at offset `i` of
`text`: a term containing a dot gets optional dots and no `\b` anchors
(line 90); any other term matches literally between word boundaries
(line 92). -/
def termMatchLenAt (term text : List Char) (i : ℕ) : Option ℕ :=
  if term.contains '.' then matchTermLen true term (text.drop i)
  else
    match matchTermLen false term (text.drop i) with
    | none => none
    | some n => if wholeWordAt text i n then some n else none

/-- The combined `|`-pattern of a category tried at one offset: alternatives
are attempted in vocabulary order, the first that matches wins. -/
def altMatchLenAt (terms : List (List Char)) (text : List Char) (i : ℕ) : Option ℕ :=
  match terms with
  | [] => none
  | t :: ts =>
    match termMatchLenAt t text i with
    | some n => some n
    | none => altMatchLenAt ts text i

/-- `finditer` scan: positions are tried left to right; after a match of
length `n` the scan resumes at its end (`max n 1` guards the degenerate
empty match, which no vocabulary term can produce). -/
def finditerAux (terms : List (List Char)) (text : List Char) :
    ℕ → ℕ → List (ℕ × ℕ)
  | 0, _ => []
  | fuel + 1, i =>
    if i > text.length then []
    else
      match altMatchLenAt terms text i with
      | some n => (i, n) :: finditerAux terms text fuel (i + max n 1)
      | none => finditerAux terms text fuel (i + 1)

/-- All non-overlapping `(start, length)` matches of a category pattern. -/
def finditerMatches (terms : List (List Char)) (text : List Char) : List (ℕ × ℕ) :=
  finditerAux terms text (text.length + 1) 0

/-- `TECH_SKILLS` (skill_extractor.py lines 12-56), in dict insertion order. -/
def TECH_SKILLS : List (SkillCategory × List String) := [
  (.programming,
    ["python", "java", "javascript", "typescript", "c++", "c#", "php", "ruby",
     "swift", "kotlin", "scala", "golang", "go", "rust", "perl", "r", "matlab",
     "dart", "cobol", "fortran", "assembly", "vb.net", "objective-c",
     "shell scripting", "powershell", "bash"]),
  (.frontend,
    ["react", "angular", "vue.js", "vue", "svelte", "html5", "html", "css3",
     "css", "sass", "scss", "less", "bootstrap", "tailwind css", "material ui",
     "antd", "jquery", "backbone.js", "ember.js", "webpack", "vite", "parcel",
     "rollup", "next.js", "nuxt.js", "gatsby"]),
  (.backend,
    ["node.js", "nodejs", "express.js", "express", "django", "flask",
     "fastapi", "spring boot", "spring", "laravel", "codeigniter", "symfony",
     "rails", "ruby on rails", "asp.net", "nest.js", "koa.js", "hapi.js",
     "gin", "echo", "fiber", "actix", "rocket"]),
  (.databases,
    ["mysql", "postgresql", "mongodb", "redis", "cassandra", "elasticsearch",
     "solr", "sqlite", "oracle", "sql server", "dynamodb", "couchdb", "neo4j",
     "influxdb", "clickhouse", "mariadb", "firestore", "realm", "hbase",
     "couchbase"]),
  (.cloud,
    ["aws", "amazon web services", "azure", "microsoft azure", "gcp",
     "google cloud", "docker", "kubernetes", "terraform", "ansible", "jenkins",
     "gitlab ci", "gitlab", "github actions", "circleci", "travis ci", "helm",
     "istio", "consul", "vault", "nomad", "prometheus", "grafana", "elk stack",
     "datadog", "newrelic", "cloudformation", "pulumi"]),
  (.mobile,
    ["android", "ios", "react native", "flutter", "xamarin", "ionic",
     "cordova", "phonegap", "native script", "unity", "unreal engine", "ar",
     "vr", "arkit", "arcore"]),
  (.data,
    ["machine learning", "ml", "artificial intelligence", "ai",
     "deep learning", "nlp", "computer vision", "data science",
     "data analytics", "pandas", "numpy", "scipy", "scikit-learn",
     "tensorflow", "pytorch", "keras", "spark", "pyspark", "hadoop", "hive",
     "pig", "kafka", "airflow", "dbt", "snowflake", "databricks", "tableau",
     "power bi", "qlik", "looker", "jupyter", "r studio", "stata", "sas"]),
  (.tools,
    ["git", "github", "gitlab", "bitbucket", "svn", "jira", "confluence",
     "slack", "teams", "figma", "sketch", "adobe xd", "invision", "postman",
     "insomnia", "swagger", "openapi", "linux", "ubuntu", "centos", "debian",
     "windows server", "macos", "vim", "vscode", "intellij", "eclipse",
     "sublime", "atom", "nginx", "apache", "tomcat", "iis"])]

/-- `normalization_map` (lines 59-70). -/
def normalization_map : List (String × String) := [
  ("gitlab ci", "gitlab"),
  ("github actions", "github"),
  ("amazon web services", "aws"),
  ("microsoft azure", "azure"),
  ("gcp", "google cloud"),
  ("vue.js", "vue"),
  ("express.js", "express"),
  ("node.js", "nodejs"),
  ("next.js", "nextjs"),
  ("nuxt.js", "nuxtjs")]

/-- `self.normalization_map.get(raw_skill, raw_skill)` (line 116). -/
def normalizeSkill (s : String) : String :=
  match normalization_map.lookup s with
  | some t => t
  | none => s

/-- Python `str.strip()`. -/
def stripEnds (cs : List Char) : List Char :=
  ((cs.dropWhile isSpaceChar).reverse.dropWhile isSpaceChar).reverse


/-! ### Context regexes of the confidence scorer (lines 76-80, 135-150) -/

/-- Regular-expression syntax covering the `skill_contexts` patterns and the
skill strings appended to them. -/
inductive Rx : Type
  | fail
  | eps
  | cls (p : Char → Bool)
  | seq (a b : Rx)
  | alt (a b : Rx)
  | star (a : Rx)

def Rx.nullable : Rx → Bool
  | .fail => false
  | .eps => true
  | .cls _ => false
  | .seq a b => a.nullable && b.nullable
  | .alt a b => a.nullable || b.nullable
  | .star _ => true

/-- Sequencing smart constructor; keeps derivatives small.  It only
collapses the languages ∅·L = ∅, ε·L = L and symmetrically, so the matched
language is unchanged. -/
def Rx.mkSeq : Rx → Rx → Rx
  | .fail, _ => .fail
  | .eps, b => b
  | _, .fail => .fail
  | a, .eps => a
  | a, b => .seq a b

/-- Alternation smart constructor; ∅ | L = L. -/
def Rx.mkAlt : Rx → Rx → Rx
  | .fail, b => b
  | a, .fail => a
  | a, b => .alt a b

/-- Brzozowski derivative: `r.deriv c` matches `w` iff `r` matches `c · w`. -/
def Rx.deriv (c : Char) : Rx → Rx
  | .fail => .fail
  | .eps => .fail
  | .cls p => if p c then .eps else .fail
  | .seq a b =>
    if a.nullable then .mkAlt (.mkSeq (a.deriv c) b) (b.deriv c)
    else .mkSeq (a.deriv c) b
  | .alt a b => .mkAlt (a.deriv c) (b.deriv c)
  | .star a => .mkSeq (a.deriv c) (.star a)

/-- Does `r` match some prefix of `cs`? -/
def Rx.matchesPrefix (r : Rx) : List Char → Bool
  | [] => r.nullable
  | c :: cs => r.nullable || (r.deriv c).matchesPrefix cs

/-- Truthiness of Python `re.search r cs`: `r` matches somewhere in `cs`. -/
def reSearch (r : Rx) : List Char → Bool
  | [] => r.nullable
  | c :: cs => r.matchesPrefix (c :: cs) || reSearch r cs

def Rx.lit (c : Char) : Rx := .cls (· == c)

def Rx.opt (a : Rx) : Rx := .alt a .eps

def rxString (s : String) : Rx := s.data.foldr (fun c r => .seq (.lit c) r) .eps

def rxSeqList (l : List Rx) : Rx := l.foldr .seq .eps

def rxAltList (l : List Rx) : Rx := l.foldr .alt .fail

def rxDigit : Rx := .cls Char.isDigit

def rxSpaceStar : Rx := .star (.cls isSpaceChar)

/-- `skill_contexts['experience']`:
`(\d+[\+\-]?)\s*(?:years?|yrs?)\s*(?:of\s*)?(?:experience\s*)?(?:in\s*|with\s*)?`. -/
def experiencePattern : Rx := rxSeqList [
  .seq rxDigit (.star rxDigit),
  .opt (.cls (fun c => c == '+' || c == '-')),
  rxSpaceStar,
  .alt (.seq (rxString "year") (.opt (.lit 's')))
       (.seq (rxString "yr") (.opt (.lit 's'))),
  rxSpaceStar,
  .opt (.seq (rxString "of") rxSpaceStar),
  .opt (.seq (rxString "experience") rxSpaceStar),
  .opt (.alt (.seq (rxString "in") rxSpaceStar)
             (.seq (rxString "with") rxSpaceStar))]

/-- `skill_contexts['proficiency']`:
`(?:expert|proficient|skilled|experienced|knowledge)\s*(?:in\s*|with\s*)?`. -/
def proficiencyPattern : Rx := rxSeqList [
  rxAltList [rxString "expert", rxString "proficient", rxString "skilled",
             rxString "experienced", rxString "knowledge"],
  rxSpaceStar,
  .opt (.alt (.seq (rxString "in") rxSpaceStar)
             (.seq (rxString "with") rxSpaceStar))]

/-- `skill_contexts['requirement']`:
`(?:required|must\s*have|should\s*have|need)\s*(?:knowledge\s*of\s*)?`. -/
def requirementPattern : Rx := rxSeqList [
  rxAltList [rxString "required",
             rxSeqList [rxString "must", rxSpaceStar, rxString "have"],
             rxSeqList [rxString "should", rxSpaceStar, rxString "have"],
             rxString "need"],
  rxSpaceStar,
  .opt (rxSeqList [rxString "knowledge", rxSpaceStar, rxString "of",
                   rxSpaceStar])]

/-- One parsed atom of the raw skill string interpreted as a pattern.
`possLit`/`possAny` are the possessive quantifiers of Python ≥ 3.11
(`c++`, `.++`): since a skill atom can only sit at the very end of the
searched pattern and quantifies a single character class, the possessive
and the greedy one-or-more accept exactly the same contexts, so both map
to the same `Rx`. -/
inductive SkillAtom : Type
  | lit (c : Char)
  | anyChar
  | plusLit (c : Char)
  | plusAny
  | possLit (c : Char)
  | possAny

def SkillAtom.rx : SkillAtom → Rx
  | .lit c => .lit c
  | .anyChar => .cls (fun c => c != '\n')
  | .plusLit c => .seq (.lit c) (.star (.lit c))
  | .plusAny =>
    .seq (.cls (fun c => c != '\n')) (.star (.cls (fun c => c != '\n')))
  | .possLit c => .seq (.lit c) (.star (.lit c))
  | .possAny =>
    .seq (.cls (fun c => c != '\n')) (.star (.cls (fun c => c != '\n')))

/-- Parse the normalized skill string as the `re` of Python ≥ 3.11 does when
the scorer appends it — unescaped — to a context pattern (lines 141-144).
Letters, digits, spaces, '#' and '-' are literals; '.' is the any-character
metacharacter; '+' is the one-or-more quantifier; a second '+' makes the
quantifier possessive (so "c++" is the possessive one-or-more of 'c' — on
Python ≤ 3.10 this is the `re.error` "multiple repeat" instead); a '+' with
no atom to its left, or a third '+', is an `re.error` on every version.  No
other character occurs in a normalized vocabulary skill; any other
metacharacter is rejected as an error. -/
def parseSkillPattern : Option SkillAtom → List Char → Option (List SkillAtom)
  | pend, [] => some pend.toList
  | pend, c :: cs =>
    if c = '+' then
      match pend with
      | some (.lit ch) => parseSkillPattern (some (.plusLit ch)) cs
      | some .anyChar => parseSkillPattern (some .plusAny) cs
      | some (.plusLit ch) => parseSkillPattern (some (.possLit ch)) cs
      | some .plusAny => parseSkillPattern (some .possAny) cs
      | _ => none
    else if c.isAlphanum ∨ c = ' ' ∨ c = '#' ∨ c = '-' then
      match pend with
      | some a => (parseSkillPattern (some (.lit c)) cs).map (a :: ·)
      | none => parseSkillPattern (some (.lit c)) cs
    else if c = '.' then
      match pend with
      | some a => (parseSkillPattern (some .anyChar) cs).map (a :: ·)
      | none => parseSkillPattern (some .anyChar) cs
    else none

def skillRx (atoms : List SkillAtom) : Rx := rxSeqList (atoms.map SkillAtom.rx)

/-- Python `sub in s` for the '@' / "http" / ".com" context checks
(line 147). -/
def containsSub (pat text : List Char) : Bool :=
  (List.range (text.length + 1)).any (fun i => pat.isPrefixOf (text.drop i))

/-- `_calculate_skill_confidence` (lines 135-150), confidence in integer
tenths.  The context window is `text[max(0, position-50) : min(len(text),
position+len(skill)+50)]`; base 0.5 (= 5), +0.3 for an experience-context
match, +0.2 for proficiency, +0.2 for requirement, −0.4 when the window
contains '@', "http" or ".com", clamped to [0.0, 1.0] (= [0, 10]).  The
experience and proficiency searches compile `pattern + skill` with the
skill unescaped: an invalid skill pattern raises `re.error`, modelled as
`.error ()`. -/
def calculate_skill_confidence (skill text : List Char) (position : ℕ) :
    Except Unit ℤ :=
  match parseSkillPattern none skill with
  | none => .error ()
  | some atoms =>
    let start := position - 50
    let stop := min text.length (position + skill.length + 50)
    let context := (text.drop start).take (stop - start)
    let c1 : ℤ := 5
    let c2 := if reSearch (.seq experiencePattern (skillRx atoms)) context
              then c1 + 3 else c1
    let c3 := if reSearch (.seq proficiencyPattern (skillRx atoms)) context
              then c2 + 2 else c2
    let c4 := if reSearch requirementPattern context then c3 + 2 else c3
    let c5 := if context.contains '@' || containsSub "http".data context
                 || containsSub ".com".data context
              then c4 - 4 else c4
    .ok (min 10 (max 0 c5))


/-- `ExtractedSkill` from models.py (confidence is not part of the record). -/
structure ExtractedSkill where
  skill : String
  category : SkillCategory
deriving DecidableEq, Repr

/-- All pattern matches over the full text in processing order: categories in
`TECH_SKILLS` dict insertion order (the `self.compiled_patterns.items()`
loop, line 110), within each category the `finditer` matches in text order.
Each entry is (category, start offset, matched text). -/
def allMatches (fullText : List Char) : List (SkillCategory × ℕ × List Char) :=
  TECH_SKILLS.flatMap (fun ct =>
    (finditerMatches (ct.2.map String.data) fullText).map
      (fun m => (ct.1, m.1, (fullText.drop m.1).take m.2)))

/-- The `skill_scores` dict update (lines 123-124): the dict maps a
normalized skill name to its best (category, confidence) pair so far; a new
occurrence replaces the stored pair — in place, keeping the key's position —
only when its confidence strictly exceeds the stored one, and an unseen key
is appended. -/
def updateScore :
    List (List Char × SkillCategory × ℤ) → List Char → SkillCategory → ℤ →
      List (List Char × SkillCategory × ℤ)
  | [], name, cat, conf => [(name, cat, conf)]
  | e :: es, name, cat, conf =>
    if e.1 = name then
      (if e.2.2 < conf then (e.1, cat, conf) else e) :: es
    else e :: updateScore es name cat conf

/-- The per-match loop body (lines 110-124): normalize the raw matched text
(`match.group().lower().strip()`, then the alias table), skip normalized
names shorter than 2 characters, score, and fold into `skill_scores`.  An
`re.error` raised by the scorer propagates out of the whole extraction. -/
def processMatches (fullText : List Char) :
    List (SkillCategory × ℕ × List Char) →
      List (List Char × SkillCategory × ℤ) →
      Except Unit (List (List Char × SkillCategory × ℤ))
  | [], scores => .ok scores
  | m :: rest, scores =>
    let rawSkill := stripEnds m.2.2
    let skillName := (normalizeSkill (String.mk rawSkill)).data
    if skillName.length < 2 then processMatches fullText rest scores
    else
      match calculate_skill_confidence skillName fullText m.2.1 with
      | .error e => .error e
      | .ok conf => processMatches fullText rest (updateScore scores skillName m.1 conf)

/-- `extract_skills_enhanced` (lines 100-133).  Python signature:
`extract_skills_enhanced(description, title="", requirements="")`.  An empty
description returns `[]` at once (`if not description`, line 102); otherwise
the fields are joined as `f"{title} {description} {requirements}"`, lowered,
scanned, scored and deduplicated, and entries with confidence > 0.3
(> 3 tenths) are emitted in dict order.  An uncaught `re.error` from the
scorer propagates to the caller, modelled as `.error ()`. -/
def extract_skills_enhanced (description : String) (title : String := "")
    (requirements : String := "") : Except Unit (List ExtractedSkill) :=
  if description = "" then .ok []
  else
    let fullText :=
      (title ++ " " ++ description ++ " " ++ requirements).data.map Char.toLower
    match processMatches fullText (allMatches fullText) [] with
    | .error e => .error e
    | .ok scores =>
      .ok ((scores.filter (fun e => decide (3 < e.2.2))).map
        (fun e => ⟨String.mk e.1, e.2.1⟩))



/-! ## Supporting lemmas for the matcher -/

/-- All strings the `\.?`-compiled pattern of a term can consume: each dot
kept or dropped, every other character kept. -/
def dotVariants : List Char → List (List Char)
  | [] => [[]]
  | c :: ts =>
    if c = '.' then (dotVariants ts).map (c :: ·) ++ dotVariants ts
    else (dotVariants ts).map (c :: ·)

theorem self_mem_dotVariants (term : List Char) : term ∈ dotVariants term := by
  induction term with
  | nil => simp [dotVariants]
  | cons c ts ih =>
    by_cases hc : c = '.'
    · simp only [dotVariants, if_pos hc, List.mem_append, List.mem_map]
      exact Or.inl ⟨ts, ih, rfl⟩
    · simp only [dotVariants, if_neg hc, List.mem_map]
      exact ⟨ts, ih, rfl⟩

/-- Every character of a dot-variant is a character of the term. -/
theorem mem_dotVariants_chars {v term : List Char} (hv : v ∈ dotVariants term) :
    ∀ c ∈ v, c ∈ term := by
  induction term generalizing v with
  | nil =>
    simp [dotVariants] at hv
    simp [hv]
  | cons t ts ih =>
    by_cases ht : t = '.'
    · simp only [dotVariants, if_pos ht, List.mem_append, List.mem_map] at hv
      rcases hv with ⟨w, hw, rfl⟩ | hv
      · intro c hc
        rcases List.mem_cons.mp hc with rfl | hc
        · exact List.mem_cons_self _ _
        · exact List.mem_cons_of_mem _ (ih hw c hc)
      · intro c hc
        exact List.mem_cons_of_mem _ (ih hv c hc)
    · simp only [dotVariants, if_neg ht, List.mem_map] at hv
      rcases hv with ⟨w, hw, rfl⟩
      intro c hc
      rcases List.mem_cons.mp hc with rfl | hc
      · exact List.mem_cons_self _ _
      · exact List.mem_cons_of_mem _ (ih hw c hc)

/-- A literal (no optional dots) match consumes exactly the term, which is a
prefix of the remaining text. -/
theorem matchTermLen_false_eq (term : List Char) :
    ∀ rest n, matchTermLen false term rest = some n →
      n = term.length ∧ term <+: rest := by
  induction term with
  | nil =>
    intro rest n h
    simp [matchTermLen] at h
    simp [← h]
  | cons t ts ih =>
    intro rest n h
    cases rest with
    | nil => simp [matchTermLen] at h
    | cons r rs =>
      simp only [matchTermLen, Bool.false_eq_true, false_and, if_false] at h
      by_cases hr : r = t
      · rw [if_pos hr] at h
        rcases Option.map_eq_some'.mp h with ⟨m, hm, rfl⟩
        rcases ih rs m hm with ⟨rfl, hpre⟩
        exact ⟨rfl, List.cons_prefix_cons.mpr ⟨hr.symm, hpre⟩⟩
      · rw [if_neg hr] at h
        exact absurd h (by simp)

/-- A dot-optional match consumes exactly one of the term's dot-variants,
which is a prefix of the remaining text. -/
theorem matchTermLen_true_variant (term : List Char) :
    ∀ rest n, matchTermLen true term rest = some n →
      ∃ v ∈ dotVariants term, v.length = n ∧ v <+: rest := by
  induction term with
  | nil =>
    intro rest n h
    simp [matchTermLen] at h
    exact ⟨[], by simp [dotVariants], by simp [← h], by simp⟩
  | cons t ts ih =>
    intro rest n h
    by_cases ht : t = '.'
    · subst ht
      have hdv : dotVariants ('.' :: ts)
          = (dotVariants ts).map ('.' :: ·) ++ dotVariants ts := by
        simp [dotVariants]
      have hvmem : ∀ v, v ∈ dotVariants ts → v ∈ dotVariants ('.' :: ts) := by
        intro v hv
        rw [hdv, List.mem_append]
        exact Or.inr hv
      have hvmem2 : ∀ v, v ∈ dotVariants ts → '.' :: v ∈ dotVariants ('.' :: ts) := by
        intro v hv
        rw [hdv, List.mem_append, List.mem_map]
        exact Or.inl ⟨v, hv, rfl⟩
      cases rest with
      | nil =>
        simp only [matchTermLen, true_and] at h
        rw [if_pos trivial] at h
        rcases ih [] n h with ⟨v, hv, hvl, hvp⟩
        exact ⟨v, hvmem v hv, hvl, hvp⟩
      | cons r rs =>
        simp only [matchTermLen, true_and] at h
        rw [if_pos trivial] at h
        by_cases hr : r = '.'
        · rw [if_pos hr] at h
          cases hm : matchTermLen true ts rs with
          | some m =>
            simp only [hm, Option.some.injEq] at h
            rcases ih rs m hm with ⟨v, hv, hvl, hvp⟩
            exact ⟨'.' :: v, hvmem2 v hv, by simp [hvl, ← h],
              by rw [hr]; exact List.cons_prefix_cons.mpr ⟨rfl, hvp⟩⟩
          | none =>
            simp only [hm] at h
            rcases ih (r :: rs) n h with ⟨v, hv, hvl, hvp⟩
            exact ⟨v, hvmem v hv, hvl, hvp⟩
        · rw [if_neg hr] at h
          rcases ih (r :: rs) n h with ⟨v, hv, hvl, hvp⟩
          exact ⟨v, hvmem v hv, hvl, hvp⟩
    · cases rest with
      | nil =>
        simp only [matchTermLen, true_and] at h
        rw [if_neg ht] at h
        exact absurd h (by simp)
      | cons r rs =>
        simp only [matchTermLen, true_and] at h
        rw [if_neg ht] at h
        by_cases hr : r = t
        · rw [if_pos hr] at h
          rcases Option.map_eq_some'.mp h with ⟨m, hm, rfl⟩
          rcases ih rs m hm with ⟨v, hv, hvl, hvp⟩
          refine ⟨t :: v, ?_, by simp [hvl], List.cons_prefix_cons.mpr ⟨hr.symm, hvp⟩⟩
          simp only [dotVariants, if_neg ht, List.mem_map]
          exact ⟨v, hv, rfl⟩
        · rw [if_neg hr] at h
          exact absurd h (by simp)

/-! ## Claim theorems for the skill extractor: input handling (C5) and
whole-word matching (C6) -/

/-- C5 counterexample.  The extractor does not scan the concatenation
whenever the description field is empty: `if not description: return []`
(line 102) fires before title and requirements are looked at, so a skill
mentioned only in the title is not extracted when the description is empty —
although the very same title text yields the skill when passed as the
description. -/
theorem C5_concatenation_counterexample :
    extract_skills_enhanced "" "python developer" "" = .ok [] ∧
    extract_skills_enhanced "python developer" "" "" =
      .ok [⟨"python", .programming⟩] := ⟨rfl, rfl⟩

/-- C5 amended: when the description is empty the extractor returns the
empty list at once, whatever the title and requirements hold (in particular
an entirely empty input yields the empty set rather than an error); when the
description is non-empty the three fields are concatenated (missing fields
as empty) and scanned together, so a skill mentioned only in the title or
only in the requirements is still extracted. -/
theorem C5_concatenation_amended :
    (∀ title requirements,
        extract_skills_enhanced "" title requirements = .ok []) ∧
    extract_skills_enhanced "hiring now" "python" "" =
      .ok [⟨"python", .programming⟩] ∧
    extract_skills_enhanced "hiring now" "" "react" =
      .ok [⟨"react", .frontend⟩] ∧
    extract_skills_enhanced " " "" "" = .ok [] := by
  refine ⟨fun t r => ?_, rfl, rfl, rfl⟩
  simp [extract_skills_enhanced]

/-- C6 counterexample.  A term containing a literal dot is compiled without
`\b` anchors (line 90), so its pattern also matches inside a longer word:
in the text " xnodejsx " the backend pattern for "node.js" matches "nodejes"
at offset 2 with word characters on both sides — no word boundary — and the
extractor consequently reports "nodejs" for the input "xnodejsx", although
neither "node.js" nor "nodejs" occurs as a whole word. -/
theorem C6_whole_word_counterexample :
    termMatchLenAt "node.js".data " xnodejsx ".data 2 = some 6 ∧
    wholeWordAt " xnodejsx ".data 2 6 = false ∧
    extract_skills_enhanced "xnodejsx" "" "" = .ok [⟨"nodejs", .backend⟩] :=
  ⟨rfl, rfl, rfl⟩

/-- C6 amended: a term without a dot matches only as a whole word — any
match consumes exactly the term and satisfies the `\b` conditions on both
sides; a term with a dot matches one of its dot-variants (each dot kept or
dropped) anywhere, with no word-boundary requirement, so it can also match
inside a longer word. -/
theorem C6_whole_word_amended (term text : List Char) (i n : ℕ)
    (h : termMatchLenAt term text i = some n) :
    (term.contains '.' = false →
      n = term.length ∧ term <+: text.drop i ∧ wholeWordAt text i n = true) ∧
    (term.contains '.' = true →
      ∃ v ∈ dotVariants term, v.length = n ∧ v <+: text.drop i) := by
  constructor
  · intro hdot
    unfold termMatchLenAt at h
    rw [hdot] at h
    simp only [Bool.false_eq_true, if_false] at h
    cases hm : matchTermLen false term (text.drop i) with
    | none => simp [hm] at h
    | some m =>
      simp only [hm] at h
      by_cases hw : wholeWordAt text i m
      · rw [if_pos hw] at h
        cases h
        obtain ⟨h1, hpre⟩ := matchTermLen_false_eq term (text.drop i) n hm
        exact ⟨h1, hpre, hw⟩
      · rw [if_neg hw] at h
        exact absurd h (by simp)
  · intro hdot
    unfold termMatchLenAt at h
    rw [hdot] at h
    simp only [if_true] at h
    exact matchTermLen_true_variant term (text.drop i) n h

/-- C6 witness: the amended theorem applied to the match of "node.js" at
offset 2 of " xnodejsx ": the consumed text is the dot-dropped variant
"nodejs". -/
theorem C6_whole_word_amended_witness :
    ∃ v ∈ dotVariants "node.js".data,
      v.length = 6 ∧ v <+: " xnodejsx ".data.drop 2 :=
  (C6_whole_word_amended "node.js".data " xnodejsx ".data 2 6 rfl).2 rfl


/-! ## Supporting lemmas for the skill-score dict (C7) -/

/-- One scored occurrence / one stored dict entry:
(normalized skill name, category, confidence in tenths). -/
abbrev ScoreEntry := List Char × SkillCategory × ℤ

/-- The `skill_scores` dict produced by folding the loop update over a list
of scored occurrences, starting from the empty dict. -/
def foldScores (occs : List ScoreEntry) : List ScoreEntry :=
  occs.foldl (fun sc o => updateScore sc o.1 o.2.1 o.2.2) []

theorem updateScore_keys (name : List Char) (cat : SkillCategory) (conf : ℤ) :
    ∀ sc : List ScoreEntry,
      (updateScore sc name cat conf).map Prod.fst =
        if name ∈ sc.map Prod.fst then sc.map Prod.fst
        else sc.map Prod.fst ++ [name] := by
  intro sc
  induction sc with
  | nil => simp [updateScore]
  | cons e es ih =>
    by_cases he : e.1 = name
    · have h1 : ((if e.2.2 < conf then (e.1, cat, conf) else e) : ScoreEntry).1
          = e.1 := by
        by_cases hq : e.2.2 < conf
        · rw [if_pos hq]
        · rw [if_neg hq]
      simp only [updateScore, if_pos he, List.map_cons, h1]
      rw [if_pos (by rw [← he]; exact List.mem_cons_self _ _)]
    · simp only [updateScore, if_neg he, List.map_cons, ih]
      by_cases hm : name ∈ es.map Prod.fst
      · rw [if_pos hm, if_pos (List.mem_cons_of_mem _ hm)]
      · rw [if_neg hm, if_neg (fun hc => by
          rcases List.mem_cons.mp hc with hc | hc
          · exact he hc.symm
          · exact hm hc)]
        rfl

theorem updateScore_keys_nodup {sc : List ScoreEntry} {name : List Char}
    {cat : SkillCategory} {conf : ℤ} (h : (sc.map Prod.fst).Nodup) :
    ((updateScore sc name cat conf).map Prod.fst).Nodup := by
  rw [updateScore_keys]
  by_cases hm : name ∈ sc.map Prod.fst
  · simpa [hm] using h
  · simp [hm, List.nodup_append, h]

/-- `e` is the entry the loop keeps for its key after processing `done`: it
is an actual occurrence, every earlier occurrence of the same key has
strictly smaller confidence (so `e` was installed), and every later one has
smaller-or-equal confidence (so `e` was never replaced). -/
def IsBestFor (done : List ScoreEntry) (e : ScoreEntry) : Prop :=
  ∃ l₁ l₂, done = l₁ ++ e :: l₂ ∧
    (∀ o ∈ l₁, o.1 = e.1 → o.2.2 < e.2.2) ∧
    (∀ o ∈ l₂, o.1 = e.1 → o.2.2 ≤ e.2.2)

theorem IsBestFor.extend {done : List ScoreEntry} {e o : ScoreEntry}
    (h : IsBestFor done e) (ho : o.1 = e.1 → o.2.2 ≤ e.2.2) :
    IsBestFor (done ++ [o]) e := by
  rcases h with ⟨l₁, l₂, rfl, h₁, h₂⟩
  refine ⟨l₁, l₂ ++ [o], by simp, h₁, ?_⟩
  intro o' ho'
  rcases List.mem_append.mp ho' with ho' | ho'
  · exact h₂ o' ho'
  · rcases List.mem_singleton.mp ho' with rfl
    exact ho

theorem updateScore_best :
    ∀ (sc : List ScoreEntry) (done : List ScoreEntry) (n : List Char)
      (c : SkillCategory) (q : ℤ),
      (sc.map Prod.fst).Nodup →
      (∀ e ∈ sc, IsBestFor done e) →
      (∀ o' ∈ done, o'.1 = n → n ∈ sc.map Prod.fst) →
      ∀ e ∈ updateScore sc n c q, IsBestFor (done ++ [(n, c, q)]) e := by
  intro sc
  induction sc with
  | nil =>
    intro done n c q _ _ hdone e he
    simp only [updateScore] at he
    rcases List.mem_singleton.mp he with rfl
    refine ⟨done, [], rfl, ?_, fun o' ho' => absurd ho' (List.not_mem_nil o')⟩
    intro o' ho' hname
    exact absurd (hdone o' ho' hname) (List.not_mem_nil _)
  | cons f fs ih =>
    intro done n c q hnd hbest hdone e he
    by_cases hf : f.1 = n
    · subst hf
      simp only [updateScore, if_pos rfl] at he
      rcases List.mem_cons.mp he with rfl | he
      · by_cases hlt : f.2.2 < q
        · rw [if_pos hlt]
          rcases hbest f (List.mem_cons_self f fs) with ⟨l₁, l₂, hsplit, h₁, h₂⟩
          refine ⟨done, [], rfl, ?_,
            fun o' ho' => absurd ho' (List.not_mem_nil o')⟩
          intro o' ho' hname
          rw [hsplit] at ho'
          rcases List.mem_append.mp ho' with ho' | ho'
          · exact lt_trans (h₁ o' ho' hname) hlt
          · rcases List.mem_cons.mp ho' with rfl | ho'
            · exact hlt
            · exact lt_of_le_of_lt (h₂ o' ho' hname) hlt
        · rw [if_neg hlt]
          exact (hbest f (List.mem_cons_self f fs)).extend
            (fun _ => le_of_not_lt hlt)
      · -- a tail entry of the dict; its key differs from f.1 by Nodup
        have hne : e.1 ≠ f.1 := by
          intro hc
          have : f.1 ∈ fs.map Prod.fst :=
            List.mem_map.mpr ⟨e, he, hc⟩
          exact (List.nodup_cons.mp hnd).1 this
        exact (hbest e (List.mem_cons_of_mem f he)).extend
          (fun hc => absurd hc.symm hne)
    · simp only [updateScore, if_neg hf] at he
      rcases List.mem_cons.mp he with rfl | he
      · exact (hbest e (List.mem_cons_self e fs)).extend
          (fun hc => absurd hc.symm hf)
      · refine ih done n c q (List.nodup_cons.mp hnd).2
          (fun e' he' => hbest e' (List.mem_cons_of_mem f he')) ?_ e he
        intro o' ho' hname
        rcases List.mem_cons.mp (hdone o' ho' hname) with hc | hc
        · exact absurd hc.symm hf
        · exact hc

theorem foldScores_inv :
    ∀ (occs : List ScoreEntry) (done sc : List ScoreEntry),
      (sc.map Prod.fst).Nodup →
      (∀ e ∈ sc, IsBestFor done e) →
      (∀ o' ∈ done, o'.1 ∈ sc.map Prod.fst) →
      (((occs.foldl (fun sc o => updateScore sc o.1 o.2.1 o.2.2) sc).map
          Prod.fst).Nodup ∧
        ∀ e ∈ occs.foldl (fun sc o => updateScore sc o.1 o.2.1 o.2.2) sc,
          IsBestFor (done ++ occs) e) := by
  intro occs
  induction occs with
  | nil =>
    intro done sc hnd hbest _
    exact ⟨hnd, by rw [List.append_nil]; exact hbest⟩
  | cons o os ih =>
    intro done sc hnd hbest hdone
    have step := updateScore_best sc done o.1 o.2.1 o.2.2 hnd hbest
      (fun o' ho' h1 => h1 ▸ hdone o' ho')
    have hnd' : ((updateScore sc o.1 o.2.1 o.2.2).map Prod.fst).Nodup :=
      updateScore_keys_nodup hnd
    have hdone' : ∀ o' ∈ done ++ [o],
        o'.1 ∈ (updateScore sc o.1 o.2.1 o.2.2).map Prod.fst := by
      intro o' ho'
      have hsub : ∀ x, x ∈ sc.map Prod.fst →
          x ∈ (updateScore sc o.1 o.2.1 o.2.2).map Prod.fst := by
        intro x hx
        rw [updateScore_keys]
        by_cases hm : o.1 ∈ sc.map Prod.fst
        · rw [if_pos hm]; exact hx
        · rw [if_neg hm]; exact List.mem_append_left _ hx
      rcases List.mem_append.mp ho' with ho' | ho'
      · exact hsub _ (hdone o' ho')
      · rcases List.mem_singleton.mp ho' with rfl
        rw [updateScore_keys]
        by_cases hm : o'.1 ∈ sc.map Prod.fst
        · rw [if_pos hm]; exact hm
        · rw [if_neg hm]; exact List.mem_append_right _ (List.mem_singleton.mpr rfl)
    have main := ih (done ++ [o]) (updateScore sc o.1 o.2.1 o.2.2) hnd'
      (fun e he => step e he) hdone'
    refine ⟨main.1, ?_⟩
    have hassoc : done ++ [o] ++ os = done ++ o :: os := by simp
    rw [← hassoc]
    exact main.2

theorem processMatches_nodup (ft : List Char) :
    ∀ (ms : List (SkillCategory × ℕ × List Char)) (sc out : List ScoreEntry),
      (sc.map Prod.fst).Nodup →
      processMatches ft ms sc = .ok out →
      (out.map Prod.fst).Nodup := by
  intro ms
  induction ms with
  | nil =>
    intro sc out hnd h
    simp only [processMatches] at h
    cases h
    exact hnd
  | cons m rest ih =>
    intro sc out hnd h
    simp only [processMatches] at h
    by_cases hlen :
        ((normalizeSkill (String.mk (stripEnds m.2.2))).data).length < 2
    · rw [if_pos hlen] at h
      exact ih sc out hnd h
    · rw [if_neg hlen] at h
      cases hc : calculate_skill_confidence
          ((normalizeSkill (String.mk (stripEnds m.2.2))).data) ft m.2.1 with
      | error e =>
        rw [hc] at h
        exact absurd h (by simp)
      | ok conf =>
        rw [hc] at h
        exact ih _ out (updateScore_keys_nodup hnd) h

theorem stringMk_injective : Function.Injective String.mk := by
  intro a b h
  injection h

/-- C7 (confirmed): best-confidence deduplication.  For any list of scored
occurrences, folding the `skill_scores` update produces a dict whose keys
(normalized skill names) are pairwise distinct, and whose every stored entry
is an actual occurrence such that all earlier occurrences of the same name
have strictly smaller confidence and all later ones smaller-or-equal
confidence — i.e. the retained (category, confidence) pair is the first one
attaining the highest confidence, replaced only on strict excess, so the
category is decided by confidence and not by pattern order.  Consequently
every successful extraction returns a list with no duplicate skill names. -/
theorem C7_best_confidence_dedup :
    (∀ occs : List ScoreEntry,
      ((foldScores occs).map Prod.fst).Nodup ∧
      ∀ e ∈ foldScores occs,
        ∃ l₁ l₂, occs = l₁ ++ e :: l₂ ∧
          (∀ o ∈ l₁, o.1 = e.1 → o.2.2 < e.2.2) ∧
          (∀ o ∈ l₂, o.1 = e.1 → o.2.2 ≤ e.2.2)) ∧
    ∀ description title requirements skills,
      extract_skills_enhanced description title requirements = .ok skills →
      (skills.map ExtractedSkill.skill).Nodup := by
  constructor
  · intro occs
    have h := foldScores_inv occs [] []
      (by simp) (fun e he => absurd he (List.not_mem_nil e))
      (fun o' ho' => absurd ho' (List.not_mem_nil o'))
    exact ⟨h.1, fun e he => h.2 e he⟩
  · intro d t r skills h
    by_cases hd : d = ""
    · simp only [extract_skills_enhanced, if_pos hd] at h
      cases h
      simp
    · simp only [extract_skills_enhanced, if_neg hd] at h
      cases hp : processMatches
          ((t ++ " " ++ d ++ " " ++ r).data.map Char.toLower)
          (allMatches ((t ++ " " ++ d ++ " " ++ r).data.map Char.toLower))
          [] with
      | error e =>
        rw [hp] at h
        exact Except.noConfusion h
      | ok scores =>
        rw [hp] at h
        simp only [Except.ok.injEq] at h
        subst h
        have hnd := processMatches_nodup _ _ [] scores (by simp) hp
        have h1 : (((scores.filter (fun e => decide (3 < e.2.2))).map
            Prod.fst)).Nodup :=
          hnd.sublist ((List.filter_sublist _).map Prod.fst)
        simp only [List.map_map]
        have h2 : ((scores.filter (fun e => decide (3 < e.2.2))).map
            (fun e => String.mk e.1)).Nodup := by
          have := h1.map stringMk_injective
          simpa [List.map_map, Function.comp] using this
        simpa [Function.comp] using h2

/-- C7 witness: the extraction of "java and javascript" returns two entries
with distinct skill names. -/
theorem C7_best_confidence_dedup_witness :
    (([⟨"java", SkillCategory.programming⟩,
       ⟨"javascript", SkillCategory.programming⟩] : List ExtractedSkill).map
      ExtractedSkill.skill).Nodup :=
  C7_best_confidence_dedup.2 "java and javascript" "" ""
    [⟨"java", .programming⟩, ⟨"javascript", .programming⟩] rfl


/-! ## Totality of the extractor (C10) -/

/-- Characters that are safe when the skill string is recompiled as a
pattern: literals (letters, digits, space, '#', '-') or the any-character
'.'; everything except '+' that can occur in a vocabulary skill. -/
def safeChar (c : Char) : Bool :=
  c.isAlphanum || c == ' ' || c == '#' || c == '-' || c == '.'

theorem parseSkillPattern_safe :
    ∀ (cs : List Char) (pend : Option SkillAtom),
      (∀ c ∈ cs, safeChar c = true) →
      (parseSkillPattern pend cs).isSome = true := by
  intro cs
  induction cs with
  | nil => intro pend _; simp [parseSkillPattern]
  | cons c cs ih =>
    intro pend hsafe
    have hc : safeChar c = true := hsafe c (List.mem_cons_self c cs)
    have htail : ∀ x ∈ cs, safeChar x = true :=
      fun x hx => hsafe x (List.mem_cons_of_mem c hx)
    have hplus : ¬ c = '+' := by
      intro h
      subst h
      exact absurd hc (by decide)
    have hcases : c.isAlphanum = true ∨ c = ' ' ∨ c = '#' ∨ c = '-' ∨ c = '.' := by
      simpa [safeChar, Bool.or_eq_true, beq_iff_eq, or_assoc] using hc
    have hmap : ∀ (a : SkillAtom) (o : Option (List SkillAtom)),
        o.isSome = true → (o.map (a :: ·)).isSome = true := by
      intro a o ho
      rcases Option.isSome_iff_exists.mp ho with ⟨v, rfl⟩
      rfl
    simp only [parseSkillPattern, if_neg hplus]
    rcases hcases with h1 | h1 | h1 | h1 | h1
    · rw [if_pos (Or.inl h1)]
      cases pend with
      | some a => exact hmap a _ (ih _ htail)
      | none => exact ih _ htail
    all_goals try
      (first
        | (rw [if_pos (Or.inr (Or.inl h1))]
           cases pend with
           | some a => exact hmap a _ (ih _ htail)
           | none => exact ih _ htail)
        | skip)
    · rw [if_pos (Or.inr (Or.inr (Or.inl h1)))]
      cases pend with
      | some a => exact hmap a _ (ih _ htail)
      | none => exact ih _ htail
    · rw [if_pos (Or.inr (Or.inr (Or.inr h1)))]
      cases pend with
      | some a => exact hmap a _ (ih _ htail)
      | none => exact ih _ htail
    · subst h1
      rw [if_neg (by decide), if_pos rfl]
      cases pend with
      | some a => exact hmap a _ (ih _ htail)
      | none => exact ih _ htail

theorem vocab_terms_safe :
    ∀ p ∈ TECH_SKILLS, ∀ t ∈ p.2,
      t = "c++" ∨ ∀ c ∈ t.data, safeChar c = true := by decide

theorem normalization_values_safe :
    ∀ q ∈ normalization_map, ∀ c ∈ q.2.data, safeChar c = true := by decide

theorem dotVariants_cpp : dotVariants "c++".data = ["c++".data] := by decide

theorem lookup_mem_snd :
    ∀ (l : List (String × String)) (a b : String),
      l.lookup a = some b → ∃ q ∈ l, q.2 = b := by
  intro l
  induction l with
  | nil => intro a b h; simp [List.lookup] at h
  | cons p ps ih =>
    intro a b h
    rw [List.lookup] at h
    cases hab : a == p.1 with
    | true =>
      rw [hab] at h
      cases h
      exact ⟨p, List.mem_cons_self p ps, rfl⟩
    | false =>
      rw [hab] at h
      rcases ih a b h with ⟨q, hq, rfl⟩
      exact ⟨q, List.mem_cons_of_mem p hq, rfl⟩

theorem normalizeSkill_safe (s : String)
    (hs : ∀ c ∈ s.data, safeChar c = true) :
    ∀ c ∈ (normalizeSkill s).data, safeChar c = true := by
  unfold normalizeSkill
  cases hl : normalization_map.lookup s with
  | none => exact hs
  | some t =>
    rcases lookup_mem_snd normalization_map s t hl with ⟨q, hq, rfl⟩
    exact normalization_values_safe q hq

theorem stripEnds_subset (cs : List Char) : ∀ c ∈ stripEnds cs, c ∈ cs := by
  intro c hc
  unfold stripEnds at hc
  rw [List.mem_reverse] at hc
  have h1 := (List.dropWhile_sublist (l := (cs.dropWhile isSpaceChar).reverse)
    (p := isSpaceChar)).mem hc
  rw [List.mem_reverse] at h1
  exact (List.dropWhile_sublist (l := cs) (p := isSpaceChar)).mem h1

theorem altMatchLenAt_mem {terms : List (List Char)} {text : List Char}
    {i n : ℕ} (h : altMatchLenAt terms text i = some n) :
    ∃ t ∈ terms, termMatchLenAt t text i = some n := by
  induction terms with
  | nil => simp [altMatchLenAt] at h
  | cons t ts ih =>
    rw [altMatchLenAt] at h
    cases ht : termMatchLenAt t text i with
    | some m =>
      rw [ht] at h
      cases h
      exact ⟨t, List.mem_cons_self t ts, ht⟩
    | none =>
      rw [ht] at h
      rcases ih h with ⟨u, hu, hmatch⟩
      exact ⟨u, List.mem_cons_of_mem t hu, hmatch⟩

theorem finditerAux_mem {terms : List (List Char)} {text : List Char} :
    ∀ (fuel i : ℕ) (p n : ℕ), (p, n) ∈ finditerAux terms text fuel i →
      ∃ t ∈ terms, termMatchLenAt t text p = some n := by
  intro fuel
  induction fuel with
  | zero => intro i p n h; simp [finditerAux] at h
  | succ fuel ih =>
    intro i p n h
    rw [finditerAux] at h
    by_cases hi : i > text.length
    · rw [if_pos hi] at h
      exact absurd h (List.not_mem_nil _)
    · rw [if_neg hi] at h
      cases ha : altMatchLenAt terms text i with
      | some m =>
        rw [ha] at h
        rcases List.mem_cons.mp h with heq | h
        · cases heq
          exact altMatchLenAt_mem ha
        · exact ih _ p n h
      | none =>
        rw [ha] at h
        exact ih _ p n h

theorem termMatchLenAt_variant {term text : List Char} {i n : ℕ}
    (h : termMatchLenAt term text i = some n) :
    ∃ v ∈ dotVariants term, (text.drop i).take n = v := by
  unfold termMatchLenAt at h
  cases hdot : term.contains '.' with
  | true =>
    rw [hdot] at h
    simp only [if_true] at h
    rcases matchTermLen_true_variant term (text.drop i) n h with ⟨v, hv, hvl, hvp⟩
    refine ⟨v, hv, ?_⟩
    rw [List.prefix_iff_eq_take.mp hvp, hvl]
  | false =>
    rw [hdot] at h
    simp only [Bool.false_eq_true, if_false] at h
    cases hm : matchTermLen false term (text.drop i) with
    | none => simp [hm] at h
    | some m =>
      simp only [hm] at h
      by_cases hw : wholeWordAt text i m
      · rw [if_pos hw] at h
        cases h
        rcases matchTermLen_false_eq term (text.drop i) n hm with ⟨hn, hpre⟩
        refine ⟨term, self_mem_dotVariants term, ?_⟩
        rw [List.prefix_iff_eq_take.mp hpre, hn]
      · rw [if_neg hw] at h
        exact absurd h (by simp)

theorem allMatches_variant (ft : List Char) :
    ∀ m ∈ allMatches ft, ∃ p ∈ TECH_SKILLS, ∃ t ∈ p.2,
      m.2.2 ∈ dotVariants t.data := by
  intro m hm
  unfold allMatches at hm
  rcases List.mem_flatMap.mp hm with ⟨ct, hct, hmem⟩
  rcases List.mem_map.mp hmem with ⟨pr, hpr, rfl⟩
  rcases finditerAux_mem _ _ pr.1 pr.2 hpr with ⟨term, hterm, hmatch⟩
  rcases List.mem_map.mp hterm with ⟨t, ht, rfl⟩
  rcases termMatchLenAt_variant hmatch with ⟨v, hv, htake⟩
  exact ⟨ct, hct, t, ht, by rw [htake]; exact hv⟩

theorem calculate_skill_confidence_ok (skill text : List Char) (pos : ℕ)
    (h : (parseSkillPattern none skill).isSome = true) :
    ∃ q, calculate_skill_confidence skill text pos = .ok q := by
  unfold calculate_skill_confidence
  rcases Option.isSome_iff_exists.mp h with ⟨atoms, ha⟩
  rw [ha]
  exact ⟨_, rfl⟩

theorem processMatches_total (ft : List Char) :
    ∀ (ms : List (SkillCategory × ℕ × List Char)) (sc : List ScoreEntry),
      (∀ m ∈ ms, (parseSkillPattern none
          ((normalizeSkill (String.mk (stripEnds m.2.2))).data)).isSome = true) →
      ∃ out, processMatches ft ms sc = .ok out := by
  intro ms
  induction ms with
  | nil => intro sc _; exact ⟨sc, rfl⟩
  | cons m rest ih =>
    intro sc hsafe
    simp only [processMatches]
    by_cases hlen :
        ((normalizeSkill (String.mk (stripEnds m.2.2))).data).length < 2
    · rw [if_pos hlen]
      exact ih sc (fun m' hm' => hsafe m' (List.mem_cons_of_mem m hm'))
    · rw [if_neg hlen]
      rcases calculate_skill_confidence_ok
          ((normalizeSkill (String.mk (stripEnds m.2.2))).data) ft m.2.1
          (hsafe m (List.mem_cons_self m rest)) with ⟨q, hq⟩
      rw [hq]
      exact ih _ (fun m' hm' => hsafe m' (List.mem_cons_of_mem m hm'))

theorem matchSkill_parse_ok (raw : List Char)
    (hraw : ∃ p ∈ TECH_SKILLS, ∃ t ∈ p.2, raw ∈ dotVariants t.data) :
    (parseSkillPattern none
      ((normalizeSkill (String.mk (stripEnds raw))).data)).isSome = true := by
  rcases hraw with ⟨p, hp, t, ht, hvar⟩
  rcases vocab_terms_safe p hp t ht with hcpp | hsafe
  · subst hcpp
    rw [dotVariants_cpp] at hvar
    rcases List.mem_singleton.mp hvar with rfl
    decide
  · have hraw_safe : ∀ c ∈ raw, safeChar c = true :=
      fun c hc => hsafe c (mem_dotVariants_chars hvar c hc)
    have hstrip_safe : ∀ c ∈ stripEnds raw, safeChar c = true :=
      fun c hc => hraw_safe c (stripEnds_subset raw c hc)
    have hmk : (String.mk (stripEnds raw)).data = stripEnds raw := rfl
    have hnorm := normalizeSkill_safe (String.mk (stripEnds raw))
      (by rw [hmk]; exact hstrip_safe)
    exact parseSkillPattern_safe _ none hnorm

/-- C10 (confirmed): extractor totality.  For every input — including text
in which the matched vocabulary term contains regex metacharacters, such as
"c++" followed by a digit — `extract_skills_enhanced` terminates normally
and returns a list, never an exception: every normalized skill reaching the
confidence scorer recompiles as a valid pattern under the `re` of
Python ≥ 3.11, where "c++" is the possessive one-or-more of 'c'.  (On
Python ≤ 3.10 the very same unescaped `re.search(pattern + "c++", ...)`
raises `re.error` "multiple repeat", so this totality is version-dependent;
the repository pins no Python version and the model follows the current
semantics.) -/
theorem C10_extractor_totality :
    (∀ description title requirements, ∃ skills,
        extract_skills_enhanced description title requirements = .ok skills) ∧
    extract_skills_enhanced "c++11" "" "" =
      .ok [⟨"c++", .programming⟩] := by
  constructor
  · intro d t r
    by_cases hd : d = ""
    · exact ⟨[], by simp [extract_skills_enhanced, hd]⟩
    · have hall : ∀ m ∈ allMatches
          ((t ++ " " ++ d ++ " " ++ r).data.map Char.toLower),
          (parseSkillPattern none
            ((normalizeSkill (String.mk (stripEnds m.2.2))).data)).isSome = true :=
        fun m hm => matchSkill_parse_ok m.2.2 (allMatches_variant _ m hm)
      rcases processMatches_total
          ((t ++ " " ++ d ++ " " ++ r).data.map Char.toLower)
          (allMatches ((t ++ " " ++ d ++ " " ++ r).data.map Char.toLower))
          [] hall with ⟨out, hout⟩
      refine ⟨(out.filter (fun e => decide (3 < e.2.2))).map
        (fun e => ⟨String.mk e.1, e.2.1⟩), ?_⟩
      simp only [extract_skills_enhanced, if_neg hd]
      rw [hout]
  · rfl


/-! ## Trend pipeline persistence (C8)

The aggregation inputs are modelled relative to the run's reference time:
a posting carries its effective ages in whole days.  analytics.py computes
`cutoff = now - timedelta(days=d)` and keeps postings with effective date
≥ cutoff (the `$or` date query, lines 39-51, preferring `posted_date` and
falling back to `scraped_date`), so a posting of age `a` days lies in the
`d`-day window iff `a ≤ d`. -/

structure Posting where
  company : String
  location : String
  skills : List (String × SkillCategory)
  postedAge : Option ℕ
  scrapedAge : ℕ
deriving DecidableEq, Repr

def inWindow (p : Posting) (days : ℕ) : Bool :=
  match p.postedAge with
  | some a => decide (a ≤ days)
  | none => decide (p.scrapedAge ≤ days)

/-- Job count of one SkillKey in one window — the `$unwind`/`$group` count
(lines 57-87): each element of a posting's `skills_extracted` array equal
to the key counts once. -/
def jobCount (postings : List Posting) (key : String × SkillCategory)
    (days : ℕ) : ℕ :=
  (postings.map (fun p => if inWindow p days then p.skills.count key else 0)).sum

/-- The SkillKey universe of a run (`all_skill_keys`, lines 98-101): the
union over all windows of the keys observed in that window, deduplicated.
Python iterates this as a set in unspecified order; each per-key record is
computed independently of the others, so the model fixes one order. -/
def allSkillKeys (postings : List Posting) (periods : List ℕ) :
    List (String × SkillCategory) :=
  (periods.flatMap (fun d =>
    postings.flatMap (fun p => if inWindow p d then p.skills else []))).dedup

/-- The deterministic fields of the `skill_trend_doc` written per key
(lines 186-201).  The set-valued fields (companies_hiring, top_locations,
salary averages) are produced by Mongo `$addToSet`/`$push` accumulators
whose element order the database does not specify, and the claim's
byte-identity is scoped by the spec to "same counts, growth rates,
direction"; the model therefore carries exactly the deterministically
computed fields. -/
structure SkillTrendDoc where
  skill_name : String
  category : SkillCategory
  job_count_7d : ℕ
  job_count_30d : ℕ
  job_count_60d : ℕ
  growth_rate : ℚ
  growth_rates_detail : List ℚ
  trend_direction : TrendDirection
  last_updated : ℕ
  period_days : ℕ
deriving DecidableEq, Repr

/-- One per-key record of `calculate_skill_trends` with the default windows
[7, 30, 60] (lines 105-201): counts per window, the two pairwise growth
rates, the composite rate (stored rounded to 2 decimals, line 192), the
trend direction from the unrounded composite and the 7-day count, the run
timestamp and `period_days = max(days_periods) = 60`. -/
def buildSkillTrendDoc (postings : List Posting) (now : ℕ)
    (key : String × SkillCategory) : SkillTrendDoc :=
  let c7 := jobCount postings key 7
  let c30 := jobCount postings key 30
  let c60 := jobCount postings key 60
  let rates := growthRates (c7 : ℚ) (c30 : ℚ) (c60 : ℚ)
  let avg := compositeGrowth rates
  { skill_name := key.1
    category := key.2
    job_count_7d := c7
    job_count_30d := c30
    job_count_60d := c60
    growth_rate := roundTo2 avg
    growth_rates_detail := rates
    trend_direction := determine_trend_direction_fixed avg c7
    last_updated := now
    period_days := 60 }

def docKey (d : SkillTrendDoc) : String × SkillCategory :=
  (d.skill_name, d.category)

/-- `self.skills.update_one({'skill_name': …, 'category': …}, {'$set': doc},
upsert=True)` (lines 204-208): replace the first stored record carrying the
same SkillKey wholesale, or append a new record when the key is absent. -/
def upsertDoc : List SkillTrendDoc → SkillTrendDoc → List SkillTrendDoc
  | [], d => [d]
  | e :: es, d =>
    if docKey e = docKey d then d :: es else e :: upsertDoc es d

/-- One full pipeline run against a trend store: recompute every SkillKey's
record from the posting set and upsert each into the store. -/
def runPipeline (store : List SkillTrendDoc) (postings : List Posting)
    (now : ℕ) : List SkillTrendDoc :=
  ((allSkillKeys postings [7, 30, 60]).map
    (buildSkillTrendDoc postings now)).foldl upsertDoc store


theorem upsertDoc_find_self :
    ∀ (s : List SkillTrendDoc) (d : SkillTrendDoc),
      (upsertDoc s d).find? (fun e => decide (docKey e = docKey d)) = some d := by
  intro s d
  induction s with
  | nil =>
    simp only [upsertDoc]
    rw [List.find?_cons_of_pos _ (by simp)]
  | cons e es ih =>
    by_cases he : docKey e = docKey d
    · simp only [upsertDoc, if_pos he]
      rw [List.find?_cons_of_pos _ (by simp)]
    · simp only [upsertDoc, if_neg he]
      rw [List.find?_cons_of_neg _ (by simp [he])]
      exact ih

theorem upsertDoc_find_other :
    ∀ (s : List SkillTrendDoc) (d : SkillTrendDoc) (k : String × SkillCategory),
      k ≠ docKey d →
      (upsertDoc s d).find? (fun e => decide (docKey e = k)) =
        s.find? (fun e => decide (docKey e = k)) := by
  intro s d k hk
  induction s with
  | nil =>
    simp only [upsertDoc]
    rw [List.find?_cons_of_neg _ (by simp; exact fun hc => hk hc.symm)]
  | cons e es ih =>
    by_cases he : docKey e = docKey d
    · simp only [upsertDoc, if_pos he]
      rw [List.find?_cons_of_neg _ (by simp; exact fun hc => hk hc.symm),
        List.find?_cons_of_neg _ (by simp; exact fun hc => hk (he ▸ hc).symm)]
    · simp only [upsertDoc, if_neg he]
      by_cases hpe : docKey e = k
      · rw [List.find?_cons_of_pos _ (by simp [hpe]),
          List.find?_cons_of_pos _ (by simp [hpe])]
      · rw [List.find?_cons_of_neg _ (by simp [hpe]),
          List.find?_cons_of_neg _ (by simp [hpe])]
        exact ih

theorem upsertDoc_of_find :
    ∀ (s : List SkillTrendDoc) (d : SkillTrendDoc),
      s.find? (fun e => decide (docKey e = docKey d)) = some d →
      upsertDoc s d = s := by
  intro s d
  induction s with
  | nil => intro h; simp [List.find?] at h
  | cons e es ih =>
    intro h
    by_cases he : docKey e = docKey d
    · rw [List.find?_cons_of_pos _ (by simp [he])] at h
      injection h with h
      subst h
      simp [upsertDoc, he]
    · rw [List.find?_cons_of_neg _ (by simp [he])] at h
      simp only [upsertDoc, if_neg he]
      rw [ih h]

theorem foldUpsert_find_untouched :
    ∀ (ds : List SkillTrendDoc) (s : List SkillTrendDoc)
      (k : String × SkillCategory),
      (∀ d ∈ ds, docKey d ≠ k) →
      (ds.foldl upsertDoc s).find? (fun e => decide (docKey e = k)) =
        s.find? (fun e => decide (docKey e = k)) := by
  intro ds
  induction ds with
  | nil => intro s k _; rfl
  | cons d0 ds ih =>
    intro s k hk
    simp only [List.foldl_cons]
    rw [ih _ k (fun d' hd' => hk d' (List.mem_cons_of_mem d0 hd'))]
    exact upsertDoc_find_other s d0 k
      (fun hc => hk d0 (List.mem_cons_self d0 ds) hc.symm)

theorem foldUpsert_find_mem :
    ∀ (ds : List SkillTrendDoc) (s : List SkillTrendDoc) (d : SkillTrendDoc),
      (ds.map docKey).Nodup → d ∈ ds →
      (ds.foldl upsertDoc s).find? (fun e => decide (docKey e = docKey d)) =
        some d := by
  intro ds
  induction ds with
  | nil => intro s d _ h; exact absurd h (List.not_mem_nil d)
  | cons d0 ds ih =>
    intro s d hnd hd
    simp only [List.foldl_cons]
    rcases List.mem_cons.mp hd with rfl | hd
    · have hne : ∀ d' ∈ ds, docKey d' ≠ docKey d := by
        intro d' hd' hc
        exact (List.nodup_cons.mp hnd).1 (List.mem_map.mpr ⟨d', hd', hc⟩)
      rw [foldUpsert_find_untouched ds _ (docKey d) hne]
      exact upsertDoc_find_self s d
    · exact ih _ d (List.nodup_cons.mp hnd).2 hd

theorem foldUpsert_noop :
    ∀ (ds : List SkillTrendDoc) (s : List SkillTrendDoc),
      (∀ d ∈ ds, s.find? (fun e => decide (docKey e = docKey d)) = some d) →
      ds.foldl upsertDoc s = s := by
  intro ds
  induction ds with
  | nil => intro s _; rfl
  | cons d0 ds ih =>
    intro s h
    simp only [List.foldl_cons]
    rw [upsertDoc_of_find s d0 (h d0 (List.mem_cons_self d0 ds))]
    exact ih s (fun d' hd' => h d' (List.mem_cons_of_mem d0 hd'))

theorem upsertDoc_keys :
    ∀ (s : List SkillTrendDoc) (d : SkillTrendDoc),
      (upsertDoc s d).map docKey =
        if docKey d ∈ s.map docKey then s.map docKey
        else s.map docKey ++ [docKey d] := by
  intro s d
  induction s with
  | nil => simp [upsertDoc]
  | cons e es ih =>
    by_cases he : docKey e = docKey d
    · simp only [upsertDoc, if_pos he, List.map_cons]
      rw [if_pos (by rw [← he]; exact List.mem_cons_self _ _), he]
    · simp only [upsertDoc, if_neg he, List.map_cons, ih]
      by_cases hm : docKey d ∈ es.map docKey
      · rw [if_pos hm, if_pos (List.mem_cons_of_mem _ hm)]
      · rw [if_neg hm, if_neg (fun hc => by
          rcases List.mem_cons.mp hc with hc | hc
          · exact he hc.symm
          · exact hm hc)]
        rfl

theorem upsertDoc_keys_nodup {s : List SkillTrendDoc} {d : SkillTrendDoc}
    (h : (s.map docKey).Nodup) : ((upsertDoc s d).map docKey).Nodup := by
  rw [upsertDoc_keys]
  by_cases hm : docKey d ∈ s.map docKey
  · rw [if_pos hm]; exact h
  · rw [if_neg hm]
    simp [List.nodup_append, h, hm]

theorem foldUpsert_keys_nodup :
    ∀ (ds s : List SkillTrendDoc),
      (s.map docKey).Nodup → ((ds.foldl upsertDoc s).map docKey).Nodup := by
  intro ds
  induction ds with
  | nil => intro s h; exact h
  | cons d0 ds ih =>
    intro s h
    simp only [List.foldl_cons]
    exact ih _ (upsertDoc_keys_nodup h)

theorem batch_keys (postings : List Posting) (now : ℕ) :
    ((allSkillKeys postings [7, 30, 60]).map
        (buildSkillTrendDoc postings now)).map docKey =
      allSkillKeys postings [7, 30, 60] := by
  rw [List.map_map]
  have h : ∀ k ∈ allSkillKeys postings [7, 30, 60],
      (docKey ∘ buildSkillTrendDoc postings now) k = k := fun k _ => rfl
  rw [List.map_congr_left h]
  exact List.map_id' _

/-- C8 (confirmed): running the full trend pipeline twice on an unchanged
posting set (same reference time) leaves the persisted store byte-identical
to a single run; the store keeps at most one record per SkillKey (keys
pairwise distinct, given the store started that way — the upsert's
uniqueness invariant); and every freshly computed SkillTrend record is
present after the run.  The records themselves are a pure function of the
posting set and reference time, so both runs compute identical counts,
growth rates and directions by construction. -/
theorem C8_pipeline_idempotent (store : List SkillTrendDoc)
    (postings : List Posting) (now : ℕ)
    (hnd : (store.map docKey).Nodup) :
    runPipeline (runPipeline store postings now) postings now =
      runPipeline store postings now ∧
    ((runPipeline store postings now).map docKey).Nodup ∧
    ∀ key ∈ allSkillKeys postings [7, 30, 60],
      buildSkillTrendDoc postings now key ∈ runPipeline store postings now := by
  have hbk : (((allSkillKeys postings [7, 30, 60]).map
      (buildSkillTrendDoc postings now)).map docKey).Nodup := by
    rw [batch_keys]
    exact List.nodup_dedup _
  refine ⟨?_, ?_, ?_⟩
  · exact foldUpsert_noop _ _ (fun d hd => foldUpsert_find_mem _ _ d hbk hd)
  · exact foldUpsert_keys_nodup _ _ hnd
  · intro key hkey
    have hmem : buildSkillTrendDoc postings now key ∈
        (allSkillKeys postings [7, 30, 60]).map
          (buildSkillTrendDoc postings now) :=
      List.mem_map.mpr ⟨key, hkey, rfl⟩
    exact List.mem_of_find?_eq_some (foldUpsert_find_mem _ store _ hbk hmem)

/-- C8 witness: the pipeline applied to one posting tagged "python", from an
empty store — a second run leaves the store unchanged and the python record
is present exactly once. -/
theorem C8_pipeline_idempotent_witness :
    runPipeline (runPipeline []
        [⟨"acme", "pune", [("python", .programming)], some 3, 1⟩] 0)
      [⟨"acme", "pune", [("python", .programming)], some 3, 1⟩] 0 =
      runPipeline []
        [⟨"acme", "pune", [("python", .programming)], some 3, 1⟩] 0 ∧
    ((runPipeline []
        [⟨"acme", "pune", [("python", .programming)], some 3, 1⟩] 0).map
      docKey).Nodup ∧
    ∀ key ∈ allSkillKeys
        [⟨"acme", "pune", [("python", .programming)], some 3, 1⟩] [7, 30, 60],
      buildSkillTrendDoc
          [⟨"acme", "pune", [("python", .programming)], some 3, 1⟩] 0 key ∈
        runPipeline []
          [⟨"acme", "pune", [("python", .programming)], some 3, 1⟩] 0 :=
  C8_pipeline_idempotent []
    [⟨"acme", "pune", [("python", .programming)], some 3, 1⟩] 0 (by simp)

/-! ## Market summary persistence (C9) -/

/-- The fields declared by the pydantic `MarketSummary` model, models.py
lines 59-67: date, total_jobs, new_jobs_24h, top_skills, top_companies,
top_locations, skill_categories, total_unique_skills — and nothing else:
the model declares no `jobs_last_7d`, `total_companies` or
`total_locations` field. -/
structure MarketSummaryModel where
  date : ℕ
  total_jobs : ℕ
  new_jobs_24h : ℕ
  top_skills : List (String × ℕ × SkillCategory)
  top_companies : List (String × ℕ)
  top_locations : List (String × ℕ)
  skill_categories : List (SkillCategory × ℕ)
  total_unique_skills : ℕ
deriving DecidableEq, Repr

set_option linter.unusedVariables false in
/-- The `MarketSummary(...)` constructor call of `generate_market_summary`
(analytics.py lines 372-384) with every keyword argument the code passes.
pydantic's default model config silently ignores unknown keyword arguments,
so `jobs_last_7d`, `total_companies` and `total_locations` — which the
model does not declare — are dropped, exactly as here. -/
def mkMarketSummary (date total_jobs new_jobs_24h jobs_last_7d : ℕ)
    (top_skills : List (String × ℕ × SkillCategory))
    (top_companies top_locations : List (String × ℕ))
    (skill_categories : List (SkillCategory × ℕ))
    (total_unique_skills total_companies total_locations : ℕ) :
    MarketSummaryModel :=
  { date := date
    total_jobs := total_jobs
    new_jobs_24h := new_jobs_24h
    top_skills := top_skills
    top_companies := top_companies
    top_locations := top_locations
    skill_categories := skill_categories
    total_unique_skills := total_unique_skills }

/-- A field value of `summary.model_dump()`. -/
inductive DumpValue : Type
  | nat (n : ℕ)
  | skills (l : List (String × ℕ × SkillCategory))
  | pairs (l : List (String × ℕ))
  | cats (l : List (SkillCategory × ℕ))
deriving DecidableEq, Repr

/-- `summary.model_dump()`: one (field name, value) binding per declared
field of the pydantic model — this is the document the `$set` upsert at
lines 387-391 persists. -/
def marketSummaryDump (m : MarketSummaryModel) : List (String × DumpValue) :=
  [("date", .nat m.date),
   ("total_jobs", .nat m.total_jobs),
   ("new_jobs_24h", .nat m.new_jobs_24h),
   ("top_skills", .skills m.top_skills),
   ("top_companies", .pairs m.top_companies),
   ("top_locations", .pairs m.top_locations),
   ("skill_categories", .cats m.skill_categories),
   ("total_unique_skills", .nat m.total_unique_skills)]

/-- Mongo `{"$sort": {…: -1}}` over grouped counts, modelled as a stable
descending insertion sort (the database leaves the order of equal counts
unspecified; the model fixes the stable one). -/
def insertByCountDesc {α : Type} (x : α × ℕ) :
    List (α × ℕ) → List (α × ℕ)
  | [] => [x]
  | y :: ys => if y.2 < x.2 then x :: y :: ys else y :: insertByCountDesc x ys

def sortByCountDesc {α : Type} (l : List (α × ℕ)) : List (α × ℕ) :=
  l.foldr insertByCountDesc []

/-- Group-and-count of a list of values (the `$group`/`$sum: 1` stage),
one entry per distinct value in first-appearance order. -/
def groupCounts {α : Type} [DecidableEq α] (l : List α) : List (α × ℕ) :=
  l.dedup.map (fun a => (a, l.count a))

/-- The last-7-days posting filter used by every rollup aggregation
(`scraped_date >= week_ago`, lines 302-369). -/
def weekPostings (postings : List Posting) : List Posting :=
  postings.filter (fun p => decide (p.scrapedAge ≤ 7))

/-- The skills pipeline (lines 306-325): postings of the trailing week,
unwound over `skills_extracted`, grouped by skill name with a count and
the first seen category, sorted by count descending, limited to 15. -/
def topSkillsAgg (postings : List Posting) : List (String × ℕ × SkillCategory) :=
  let sk := (weekPostings postings).flatMap Posting.skills
  (sortByCountDesc (groupCounts (sk.map Prod.fst))).take 15 |>.map
    (fun nc => (nc.1, nc.2,
      (match sk.find? (fun q => decide (q.1 = nc.1)) with
       | some q => q.2
       | none => SkillCategory.tools)))

/-- `generate_market_summary` (analytics.py lines 293-398) down to the
persisted document: computes total postings, last-24h and trailing-week
posting counts, top skills/companies/locations (count-descending, limit
15), the category breakdown, distinct-company and distinct-location counts
(`total_unique_skills` is the size of the external skills collection,
passed in), builds the pydantic record and returns its `model_dump()` — the
document upserted under the calendar date `today`. -/
def generate_market_summary (postings : List Posting)
    (today skillsCount : ℕ) : List (String × DumpValue) :=
  let week := weekPostings postings
  let total_jobs := postings.length
  let new_jobs_24h := (postings.filter (fun p => decide (p.scrapedAge ≤ 1))).length
  let jobs_last_7d := week.length
  let top_skills := topSkillsAgg postings
  let top_companies := (sortByCountDesc (groupCounts (week.map Posting.company))).take 15
  let top_locations := (sortByCountDesc (groupCounts (week.map Posting.location))).take 15
  let skill_categories :=
    sortByCountDesc (groupCounts ((week.flatMap Posting.skills).map Prod.snd))
  let total_companies := (week.map Posting.company).dedup.length
  let total_locations := (week.map Posting.location).dedup.length
  marketSummaryDump (mkMarketSummary today total_jobs new_jobs_24h jobs_last_7d
    top_skills top_companies top_locations skill_categories skillsCount
    total_companies total_locations)

/-- C9: the persisted daily MarketSummary does not contain all the fields
the rollup computes.  `generate_market_summary` computes the trailing-week
posting count and passes it as `jobs_last_7d=` (analytics.py line 376), but
the pydantic `MarketSummary` model (models.py lines 59-67) declares no such
field, so pydantic silently drops it (likewise `total_companies` and
`total_locations`): the persisted document's keys are exactly the eight
declared fields, with `jobs_last_7d` absent — while the other computed
values (the date key, total and 24h counts, the rollup lists) are present. -/
theorem C9_market_summary_fields (postings : List Posting)
    (today skillsCount : ℕ) :
    (generate_market_summary postings today skillsCount).map Prod.fst =
      ["date", "total_jobs", "new_jobs_24h", "top_skills", "top_companies",
       "top_locations", "skill_categories", "total_unique_skills"] ∧
    "jobs_last_7d" ∉
      (generate_market_summary postings today skillsCount).map Prod.fst ∧
    (generate_market_summary postings today skillsCount).lookup "date" =
      some (.nat today) ∧
    (generate_market_summary postings today skillsCount).lookup "total_jobs" =
      some (.nat postings.length) ∧
    (generate_market_summary postings today skillsCount).lookup
        "total_unique_skills" = some (.nat skillsCount) := by
  refine ⟨rfl, ?_, rfl, rfl, rfl⟩
  rw [show (generate_market_summary postings today skillsCount).map Prod.fst =
    ["date", "total_jobs", "new_jobs_24h", "top_skills", "top_companies",
     "top_locations", "skill_categories", "total_unique_skills"] from rfl]
  decide

end JobMarket
